import Mathlib

/-!
Verification development for the go-tables table-rendering library.

Byte buffers are modelled as `List Nat` (each element a byte value), Unicode
code points as `Nat`, and Go's pluggable `WidthFunc` as `Nat → Nat`.
Definitions are translated from the Go source (`table.go`, `width.go`,
`table_styles.go`); the ANSI escape-sequence helpers, whose source file is
absent from the repository snapshot, are modelled from the specification and
marked as such in their doc comments.

Recursive functions that walk byte buffers consume a data-dependent number of
bytes per step, so they are written with an explicit fuel argument (the buffer
length suffices, since every step consumes at least one byte); the public
wrappers instantiate the fuel, and unfolding lemmas below recover the natural
step equations.
-/

/-- Alignment constants from table.go (`AlignLeft`, `AlignCenter`, `AlignRight`). -/
inductive Align where
  | left
  | center
  | right
deriving DecidableEq, Repr

/-- Border style from table.go; the eleven rune fields are stored as code points. -/
structure Style where
  TopLeft : Nat
  TopRight : Nat
  BottomLeft : Nat
  BottomRight : Nat
  Horizontal : Nat
  Vertical : Nat
  Cross : Nat
  TopTee : Nat
  BottomTee : Nat
  LeftTee : Nat
  RightTee : Nat
deriving DecidableEq, Repr

/-- StyleSingle from table_styles.go: single-line box drawing characters. -/
def StyleSingle : Style :=
  { TopLeft := 0x250C, TopRight := 0x2510, BottomLeft := 0x2514, BottomRight := 0x2518
  , Horizontal := 0x2500, Vertical := 0x2502, Cross := 0x253C
  , TopTee := 0x252C, BottomTee := 0x2534, LeftTee := 0x251C, RightTee := 0x2524 }

/-- StyleDouble from table_styles.go: double-line box drawing characters. -/
def StyleDouble : Style :=
  { TopLeft := 0x2554, TopRight := 0x2557, BottomLeft := 0x255A, BottomRight := 0x255D
  , Horizontal := 0x2550, Vertical := 0x2551, Cross := 0x256C
  , TopTee := 0x2566, BottomTee := 0x2569, LeftTee := 0x2560, RightTee := 0x2563 }

/-- StyleRounded from table_styles.go: rounded corners, single-line edges. -/
def StyleRounded : Style :=
  { TopLeft := 0x256D, TopRight := 0x256E, BottomLeft := 0x2570, BottomRight := 0x256F
  , Horizontal := 0x2500, Vertical := 0x2502, Cross := 0x253C
  , TopTee := 0x252C, BottomTee := 0x2534, LeftTee := 0x251C, RightTee := 0x2524 }

/-- StyleASCII from table_styles.go: plus, minus and pipe characters. -/
def StyleASCII : Style :=
  { TopLeft := 0x2B, TopRight := 0x2B, BottomLeft := 0x2B, BottomRight := 0x2B
  , Horizontal := 0x2D, Vertical := 0x7C, Cross := 0x2B
  , TopTee := 0x2B, BottomTee := 0x2B, LeftTee := 0x2B, RightTee := 0x2B }

/-- StyleNone from table_styles.go: all border characters are spaces. -/
def StyleNone : Style :=
  { TopLeft := 0x20, TopRight := 0x20, BottomLeft := 0x20, BottomRight := 0x20
  , Horizontal := 0x20, Vertical := 0x20, Cross := 0x20
  , TopTee := 0x20, BottomTee := 0x20, LeftTee := 0x20, RightTee := 0x20 }

/-- unicodeRange from width.go; the Go field `end` is spelled `stop` here
because `end` is a reserved word in Lean. -/
structure unicodeRange where
  start : Nat
  stop : Nat
  width : Nat
deriving DecidableEq, Repr

/-- wideRanges from width.go, in source order. -/
def wideRanges : List unicodeRange :=
  [ ⟨0x4E00, 0x9FFF, 2⟩
  , ⟨0x3400, 0x4DBF, 2⟩
  , ⟨0x20000, 0x2A6DF, 2⟩
  , ⟨0x2A700, 0x2B73F, 2⟩
  , ⟨0x2B740, 0x2B81F, 2⟩
  , ⟨0x2B820, 0x2CEAF, 2⟩
  , ⟨0x2CEB0, 0x2EBEF, 2⟩
  , ⟨0xAC00, 0xD7AF, 2⟩
  , ⟨0x1100, 0x115F, 2⟩
  , ⟨0x1160, 0x11FF, 2⟩
  , ⟨0xA960, 0xA97F, 2⟩
  , ⟨0x3040, 0x309F, 2⟩
  , ⟨0x30A0, 0x30FF, 2⟩
  , ⟨0x31F0, 0x31FF, 2⟩
  , ⟨0x3000, 0x303F, 2⟩
  , ⟨0x2E80, 0x2EFF, 2⟩
  , ⟨0x2F00, 0x2FDF, 2⟩
  , ⟨0x2FF0, 0x2FFF, 2⟩
  , ⟨0xFF01, 0xFF60, 2⟩
  , ⟨0xFFE0, 0xFFE6, 2⟩
  , ⟨0x1F300, 0x1F5FF, 2⟩
  , ⟨0x1F600, 0x1F64F, 2⟩
  , ⟨0x1F680, 0x1F6FF, 2⟩
  , ⟨0x1F700, 0x1F77F, 2⟩
  , ⟨0x1F780, 0x1F7FF, 2⟩
  , ⟨0x1F800, 0x1F8FF, 2⟩
  , ⟨0x1F900, 0x1F9FF, 2⟩
  , ⟨0x1FA00, 0x1FA6F, 2⟩
  , ⟨0x1FA70, 0x1FAFF, 2⟩
  , ⟨0x2460, 0x24FF, 2⟩
  , ⟨0x25A0, 0x25FF, 2⟩
  , ⟨0x2600, 0x26FF, 2⟩
  , ⟨0x2700, 0x27BF, 2⟩ ]

/-- zeroWidthRanges from width.go, in source order. -/
def zeroWidthRanges : List unicodeRange :=
  [ ⟨0x0300, 0x036F, 0⟩
  , ⟨0x1AB0, 0x1AFF, 0⟩
  , ⟨0x1DC0, 0x1DFF, 0⟩
  , ⟨0x20D0, 0x20FF, 0⟩
  , ⟨0xFE20, 0xFE2F, 0⟩
  , ⟨0x200B, 0x200F, 0⟩
  , ⟨0x2028, 0x2029, 0⟩
  , ⟨0x202A, 0x202E, 0⟩
  , ⟨0x2060, 0x2064, 0⟩ ]

/-- Membership of a code point in a range (the comparison done by the Go loops). -/
def inRange (g : unicodeRange) (r : Nat) : Prop := g.start ≤ r ∧ r ≤ g.stop

instance (g : unicodeRange) (r : Nat) : Decidable (inRange g r) := by
  unfold inRange; infer_instance

/-- RuneWidth from width.go: ASCII fast path, then the zero-width ranges,
then the wide ranges, default 1. -/
def RuneWidth (r : Nat) : Nat :=
  if r < 0x80 then
    if 0x20 ≤ r then 1 else 0
  else if zeroWidthRanges.any (fun g => decide (inRange g r)) then 0
  else
    match wideRanges.find? (fun g => decide (inRange g r)) with
    | some g => g.width
    | none => 1

/-- Continuation-byte acceptance window for the second byte of a three-byte
UTF-8 sequence, as in Go's unicode/utf8 acceptRanges table. -/
def acceptRange3 (b0 : Nat) : Nat × Nat :=
  if b0 = 0xE0 then (0xA0, 0xBF)
  else if b0 = 0xED then (0x80, 0x9F)
  else (0x80, 0xBF)

/-- Continuation-byte acceptance window for the second byte of a four-byte
UTF-8 sequence, as in Go's unicode/utf8 acceptRanges table. -/
def acceptRange4 (b0 : Nat) : Nat × Nat :=
  if b0 = 0xF0 then (0x90, 0xBF)
  else if b0 = 0xF4 then (0x80, 0x8F)
  else (0x80, 0xBF)

/-- utf8.DecodeRune from Go's standard library, as used throughout width.go:
returns the decoded code point and the number of bytes consumed; on invalid
input returns (RuneError, 1), on empty input (RuneError, 0). -/
def decodeRune : List Nat → Nat × Nat
  | [] => (0xFFFD, 0)
  | b0 :: rest =>
    if b0 < 0x80 then (b0, 1)
    else if b0 < 0xC2 ∨ 0xF4 < b0 then (0xFFFD, 1)
    else if b0 < 0xE0 then
      match rest with
      | b1 :: _ =>
        if 0x80 ≤ b1 ∧ b1 ≤ 0xBF then ((b0 - 0xC0) * 64 + (b1 - 0x80), 2)
        else (0xFFFD, 1)
      | [] => (0xFFFD, 1)
    else if b0 < 0xF0 then
      match rest with
      | b1 :: b2 :: _ =>
        if (acceptRange3 b0).1 ≤ b1 ∧ b1 ≤ (acceptRange3 b0).2 ∧
            0x80 ≤ b2 ∧ b2 ≤ 0xBF then
          ((b0 - 0xE0) * 4096 + (b1 - 0x80) * 64 + (b2 - 0x80), 3)
        else (0xFFFD, 1)
      | _ => (0xFFFD, 1)
    else
      match rest with
      | b1 :: b2 :: b3 :: _ =>
        if (acceptRange4 b0).1 ≤ b1 ∧ b1 ≤ (acceptRange4 b0).2 ∧
            0x80 ≤ b2 ∧ b2 ≤ 0xBF ∧ 0x80 ≤ b3 ∧ b3 ≤ 0xBF then
          ((b0 - 0xF0) * 262144 + (b1 - 0x80) * 4096 + (b2 - 0x80) * 64 + (b3 - 0x80), 4)
        else (0xFFFD, 1)
      | _ => (0xFFFD, 1)

/-- utf8.EncodeRune from Go's standard library: UTF-8 bytes of a code point,
with surrogates and out-of-range values encoded as RuneError. -/
def encodeRune (r : Nat) : List Nat :=
  if r < 0x80 then [r]
  else if r < 0x800 then [0xC0 + r / 64, 0x80 + r % 64]
  else if 0xD800 ≤ r ∧ r ≤ 0xDFFF then [0xEF, 0xBF, 0xBD]
  else if r < 0x10000 then [0xE0 + r / 4096, 0x80 + (r / 64) % 64, 0x80 + r % 64]
  else if r ≤ 0x10FFFF then
    [0xF0 + r / 262144, 0x80 + (r / 4096) % 64, 0x80 + (r / 64) % 64, 0x80 + r % 64]
  else [0xEF, 0xBF, 0xBD]

/-- appendRune from table_styles.go: ASCII fast path, UTF-8 encoding otherwise. -/
def appendRune (b : List Nat) (r : Nat) : List Nat :=
  if r < 0x80 then b ++ [r] else b ++ encodeRune r

/-- Modelled from the spec: the escape-sequence scanner's parameter loop is
absent from the repository snapshot. After `ESC [`, parameter and intermediate
bytes (0x20 to 0x3F) are consumed; the first byte outside that window is
consumed as the final byte; an unterminated sequence consumes the remaining
buffer. Returns the suffix after the sequence body. -/
def csiSkip : List Nat → List Nat
  | [] => []
  | c :: rest => if 0x20 ≤ c ∧ c ≤ 0x3F then csiSkip rest else rest

/-- Modelled from the spec: HasANSIBytes is absent from the repository
snapshot; per the spec a cell contains an escape sequence when the CSI
introducer `ESC [` occurs in it. -/
def HasANSIBytes : List Nat → Bool
  | [] => false
  | b0 :: rest => decide (b0 = 27 ∧ rest.take 1 = [91]) || HasANSIBytes rest

/-- Fuel-structural worker for StripANSIBytes. -/
def stripWF : Nat → List Nat → List Nat
  | _, [] => []
  | 0, l => l
  | fuel + 1, b0 :: rest =>
    if b0 = 27 ∧ rest.take 1 = [91] then stripWF fuel (csiSkip (rest.drop 1))
    else b0 :: stripWF fuel rest

/-- Modelled from the spec: StripANSIBytes is absent from the repository
snapshot; it removes every CSI escape sequence and keeps all other bytes. -/
def StripANSIBytes (b : List Nat) : List Nat := stripWF b.length b

/-- Fuel-structural worker for MeasureWidthIgnoreANSIBytesCustom. -/
def measureWF (f : Nat → Nat) : Nat → List Nat → Nat
  | _, [] => 0
  | 0, _ :: _ => 0
  | fuel + 1, b0 :: rest =>
    if b0 = 27 ∧ rest.take 1 = [91] then measureWF f fuel (csiSkip (rest.drop 1))
    else
      let rs := decodeRune (b0 :: rest)
      if rs.1 = 0xFFFD then 1 + measureWF f fuel rest
      else f rs.1 + measureWF f fuel (List.drop rs.2 (b0 :: rest))

/-- Modelled from the spec: MeasureWidthIgnoreANSIBytesCustom is absent from
the repository snapshot. Per the spec's width accumulator it scans the buffer
left to right, skips CSI escape sequences at zero width, counts each invalid
encoding unit as width 1 advancing one byte, and otherwise adds the configured
width of the decoded code point. -/
def MeasureWidthIgnoreANSIBytesCustom (f : Nat → Nat) (b : List Nat) : Nat :=
  measureWF f b.length b

/-- Fuel-structural worker for StringWidthBytesCustom. -/
def widthWF (f : Nat → Nat) : Nat → List Nat → Nat
  | _, [] => 0
  | 0, _ :: _ => 0
  | fuel + 1, b0 :: rest =>
    let rs := decodeRune (b0 :: rest)
    if rs.1 = 0xFFFD then 1 + widthWF f fuel rest
    else f rs.1 + widthWF f fuel (List.drop rs.2 (b0 :: rest))

/-- StringWidthBytesCustom from width.go: display width of a byte buffer under
a custom width function, counting each invalid encoding unit as width 1. -/
def StringWidthBytesCustom (f : Nat → Nat) (b : List Nat) : Nat :=
  widthWF f b.length b

/-- StringWidthBytes from width.go (identical loop with RuneWidth). -/
def StringWidthBytes (b : List Nat) : Nat := StringWidthBytesCustom RuneWidth b

/-- Fuel-structural worker for the greedy consumption loop of
TruncateToWidthBytes. Returns the consumed prefix, the accumulated width, and
whether any input remained when the loop stopped. -/
def truncWF (maxW : Nat) : Nat → List Nat → Nat → List Nat × Nat × Bool
  | _, [], width => ([], width, false)
  | 0, _ :: _, width => ([], width, true)
  | fuel + 1, b0 :: rest, width =>
    let rs := decodeRune (b0 :: rest)
    let rw := RuneWidth rs.1
    if maxW < width + rw then ([], width, true)
    else
      let out := truncWF maxW fuel (List.drop rs.2 (b0 :: rest)) (width + rw)
      (List.take rs.2 (b0 :: rest) ++ out.1, out.2.1, out.2.2)

/-- The greedy consumption loop of TruncateToWidthBytes (fuel instantiated). -/
def truncLoop (maxW : Nat) (b : List Nat) (width : Nat) : List Nat × Nat × Bool :=
  truncWF maxW b.length b width

/-- TruncateToWidthBytes from width.go: greedily consumes whole code points
while the accumulated RuneWidth stays within maxWidth, then appends a
three-dot ellipsis when input remained and the accumulated width left at
least three cells of room. -/
def TruncateToWidthBytes (b : List Nat) (maxW : Nat) : List Nat :=
  if maxW = 0 then []
  else
    let out := truncLoop maxW b 0
    if out.2.2 ∧ out.2.1 + 3 ≤ maxW then out.1 ++ [46, 46, 46] else out.1

/-- truncateWithANSI from table.go: plain truncation for ANSI-free cells;
for ANSI cells the stripped content is kept (escapes are free) when it fits,
and truncated without styling otherwise. -/
def truncateWithANSI (f : Nat → Nat) (cell : List Nat) (maxW : Nat) : List Nat :=
  if HasANSIBytes cell = false then TruncateToWidthBytes cell maxW
  else
    let stripped := StripANSIBytes cell
    if StringWidthBytesCustom f stripped ≤ maxW then cell
    else TruncateToWidthBytes stripped maxW

/-- padWithANSI from table.go: pads the cell with space bytes outside the
content, left, right, or split for center alignment. -/
def padWithANSI (cell : List Nat) (targetW currentW : Nat) (align : Align) : List Nat :=
  let padding := targetW - currentW
  if padding = 0 then cell
  else
    match align with
    | Align.center =>
      let leftPad := padding / 2
      let rightPad := padding - leftPad
      List.replicate leftPad 32 ++ cell ++ List.replicate rightPad 32
    | Align.right => List.replicate padding 32 ++ cell
    | Align.left => cell ++ List.replicate padding 32

/-- alignCell from table.go: measure the cell, truncate when it is at least
the target width, pad otherwise. -/
def alignCell (f : Nat → Nat) (cell : List Nat) (width : Nat) (align : Align) : List Nat :=
  let cellWidth := MeasureWidthIgnoreANSIBytesCustom f cell
  if width ≤ cellWidth then truncateWithANSI f cell width
  else padWithANSI cell width cellWidth align


/-- Go values accepted by AddRow; a float value carries the canonical decimal
form produced by strconv (floating-point formatting itself is not embedded),
and the fallback case carries the generic textual representation. -/
inductive GoVal where
  | bytes (b : List Nat)
  | str (s : List Nat)
  | int (n : Int)
  | boolean (b : Bool)
  | float (repr : List Nat)
  | other (repr : List Nat)

/-- ASCII decimal digits of a natural number (fuel-structural worker). -/
def natDigitsWF : Nat → Nat → List Nat
  | 0, _ => []
  | fuel + 1, n => if n < 10 then [48 + n] else natDigitsWF fuel (n / 10) ++ [48 + n % 10]

/-- ASCII decimal digits of a natural number. -/
def natDigits (n : Nat) : List Nat := natDigitsWF (n + 1) n

/-- strconv.AppendInt in base 10: decimal ASCII form of an integer. -/
def intToBytes (i : Int) : List Nat :=
  if i < 0 then 45 :: natDigits i.natAbs else natDigits i.toNat

/-- Conversion of one AddRow value to its cell bytes (the switch in AddRow). -/
def goValToBytes : GoVal → List Nat
  | GoVal.bytes b => b
  | GoVal.str s => s
  | GoVal.int n => intToBytes n
  | GoVal.boolean true => [116, 114, 117, 101]
  | GoVal.boolean false => [102, 97, 108, 115, 101]
  | GoVal.float r => r
  | GoVal.other r => r

/-- Table from table.go. The buffer pool is pure-performance machinery with no
observable effect and is not modelled; the pluggable width function is a field. -/
structure Table where
  headers : List (List Nat)
  rows : List (List (List Nat))
  style : Style
  aligns : List Align
  maxWidths : List Nat
  widthFunc : Nat → Nat

/-- New from table.go: headers copied, single-line style, left alignment and
unlimited width for every column, RuneWidth as the default width function. -/
def New (headers : List (List Nat)) : Table :=
  { headers := headers
  , rows := []
  , style := StyleSingle
  , aligns := List.replicate headers.length Align.left
  , maxWidths := List.replicate headers.length 0
  , widthFunc := RuneWidth }

/-- Row buffer built by AddRow/AddRowBytes: one cell per header, values beyond
the header count dropped, missing trailing cells empty. -/
def buildRow (headerCount : Nat) (values : List (List Nat)) : List (List Nat) :=
  (List.range headerCount).map fun i => (values.getD i [])

/-- AddRow from table.go: a call with zero values returns the table unchanged;
otherwise each value is converted once and a header-length row is appended. -/
def Table.AddRow (t : Table) (values : List GoVal) : Table :=
  match values with
  | [] => t
  | _ => { t with rows := t.rows ++ [buildRow t.headers.length (values.map goValToBytes)] }

/-- AddRowBytes from table.go: same as AddRow for byte-slice values. -/
def Table.AddRowBytes (t : Table) (values : List (List Nat)) : Table :=
  match values with
  | [] => t
  | _ => { t with rows := t.rows ++ [buildRow t.headers.length values] }

/-- SetStyle from table.go. -/
def Table.SetStyle (t : Table) (s : Style) : Table := { t with style := s }

/-- SetAlign from table.go: out-of-range column indices are ignored. -/
def Table.SetAlign (t : Table) (col : Nat) (a : Align) : Table :=
  if col < t.aligns.length then { t with aligns := t.aligns.set col a } else t

/-- SetMaxWidth from table.go: out-of-range column indices are ignored. -/
def Table.SetMaxWidth (t : Table) (col : Nat) (w : Nat) : Table :=
  if col < t.maxWidths.length then { t with maxWidths := t.maxWidths.set col w } else t

/-- SetWidthFunc from table.go. -/
def Table.SetWidthFunc (t : Table) (f : Nat → Nat) : Table := { t with widthFunc := f }

/-- One pass of the row-measuring loop in measureColumns: pointwise maximum of
the current widths with the measured widths of the row's cells (cells beyond
the width slice ignored, columns beyond the row untouched). -/
def rowUpdate (f : Nat → Nat) : List Nat → List (List Nat) → List Nat
  | ws, [] => ws
  | [], _ => []
  | w :: ws, c :: cs => max w (MeasureWidthIgnoreANSIBytesCustom f c) :: rowUpdate f ws cs

/-- The max-width clipping loop in measureColumns: a positive maximum smaller
than the measured width replaces it. -/
def clipWidths : List Nat → List Nat → List Nat
  | ws, [] => ws
  | [], _ => []
  | w :: ws, m :: ms => (if 0 < m ∧ m < w then m else w) :: clipWidths ws ms

/-- measureColumns from table.go: header widths, then the row maxima, then the
max-width clipping. -/
def Table.measureColumns (t : Table) : List Nat :=
  if t.headers = [] then []
  else
    clipWidths
      (t.rows.foldl (rowUpdate t.widthFunc)
        (t.headers.map (MeasureWidthIgnoreANSIBytesCustom t.widthFunc)))
      t.maxWidths

/-- renderBorderLine from table_styles.go: start character, per column the
fill repeated width plus two times, separators between columns, end character
and a newline. -/
def Style.renderBorderLine (s : Style) (widths : List Nat) (lineType : String) : List Nat :=
  if widths = [] then []
  else
    let chars :=
      match lineType with
      | "top" => (s.TopLeft, s.TopRight, s.TopTee, s.Horizontal)
      | "middle" => (s.LeftTee, s.RightTee, s.Cross, s.Horizontal)
      | "header" => (s.LeftTee, s.RightTee, s.Cross, s.Horizontal)
      | "bottom" => (s.BottomLeft, s.BottomRight, s.BottomTee, s.Horizontal)
      | _ => (s.LeftTee, s.RightTee, s.Cross, s.Horizontal)
    encodeRune chars.1 ++
    (List.flatten ((List.range widths.length).map fun i =>
      List.flatten (List.replicate (widths.getD i 0 + 2) (encodeRune chars.2.2.2)) ++
      (if i < widths.length - 1 then encodeRune chars.2.2.1 else []))) ++
    encodeRune chars.2.1 ++ [10]

/-- renderBorder from table.go: nothing for an empty width list, otherwise the
style's border line. -/
def Table.renderBorder (t : Table) (widths : List Nat) (borderType : String) : List Nat :=
  if widths = [] then [] else t.style.renderBorderLine widths borderType

/-- renderRow from table.go: vertical border, then per column a space, the
aligned cell (missing cells empty, missing alignments left), a space and the
vertical character, then a newline. -/
def Table.renderRow (t : Table) (row : List (List Nat)) (widths : List Nat) : List Nat :=
  if widths = [] then []
  else
    encodeRune t.style.Vertical ++
    (List.flatten ((List.range widths.length).map fun i =>
      [32] ++
      alignCell t.widthFunc (row.getD i []) (widths.getD i 0) (t.aligns.getD i Align.left) ++
      [32] ++ encodeRune t.style.Vertical)) ++
    [10]

/-- String from table.go: empty output for a headerless table, otherwise top
border, header row, middle border, data rows, bottom border. The Go string
result is modelled as its byte list. -/
def Table.String (t : Table) : List Nat :=
  if t.headers = [] then []
  else
    let widths := t.measureColumns
    t.renderBorder widths "top" ++
    t.renderRow t.headers widths ++
    t.renderBorder widths "middle" ++
    List.flatten (t.rows.map fun row => t.renderRow row widths) ++
    t.renderBorder widths "bottom"

/-- WriteTo from table.go: nothing is written for a headerless table and the
count is zero; otherwise the same pipeline as String fills the buffer and the
buffer is written to the sink. The sink is modelled as an accumulating writer,
so the result is the pair of the returned count and the bytes written (the
error is nil in both branches). -/
def Table.WriteTo (t : Table) : Nat × List Nat :=
  if t.headers = [] then (0, [])
  else
    let widths := t.measureColumns
    let out :=
      t.renderBorder widths "top" ++
      t.renderRow t.headers widths ++
      t.renderBorder widths "middle" ++
      List.flatten (t.rows.map fun row => t.renderRow row widths) ++
      t.renderBorder widths "bottom"
    (out.length, out)

/-- Configuration and mutation calls available on a table before rendering. -/
inductive TableOp where
  | setStyle (s : Style)
  | setAlign (col : Nat) (a : Align)
  | setMaxWidth (col : Nat) (w : Nat)
  | setWidthFunc (f : Nat → Nat)
  | addRow (vals : List GoVal)
  | addRowBytes (vals : List (List Nat))

/-- Application of one configuration or mutation call. -/
def applyOp (t : Table) : TableOp → Table
  | TableOp.setStyle s => t.SetStyle s
  | TableOp.setAlign c a => t.SetAlign c a
  | TableOp.setMaxWidth c w => t.SetMaxWidth c w
  | TableOp.setWidthFunc f => t.SetWidthFunc f
  | TableOp.addRow vs => t.AddRow vs
  | TableOp.addRowBytes vs => t.AddRowBytes vs

/-- Application of a sequence of calls, first to last. -/
def applyOps (t : Table) (ops : List TableOp) : Table := ops.foldl applyOp t

/-- Fuel-structural worker for the spec-described truncation loop. -/
def truncSpecWF (f : Nat → Nat) (maxW : Nat) : Nat → List Nat → Nat → List Nat × Nat × Bool
  | _, [], width => ([], width, false)
  | 0, _ :: _, width => ([], width, true)
  | fuel + 1, b0 :: rest, width =>
    let rs := decodeRune (b0 :: rest)
    let rw := f rs.1
    if maxW < width + rw then ([], width, true)
    else
      let out := truncSpecWF f maxW fuel (List.drop rs.2 (b0 :: rest)) (width + rw)
      (List.take rs.2 (b0 :: rest) ++ out.1, out.2.1, out.2.2)

/-- Modelled from the spec's words, for refinement comparison only: the cell
formatter's truncation step is described as greedily consuming code points
while the accumulated width, computed with the configured width function,
stays within the target, then appending the ellipsis when there is room.
TruncateToWidthBytes in width.go is the implementation this is compared to. -/
def truncateToWidthSpec (f : Nat → Nat) (b : List Nat) (maxW : Nat) : List Nat :=
  if maxW = 0 then []
  else
    let out := truncSpecWF f maxW b.length b 0
    if out.2.2 ∧ out.2.1 + 3 ≤ maxW then out.1 ++ [46, 46, 46] else out.1

/-- Measured width of the cell a row has at a column index, absent cells
contributing zero (spec wording for the column layout engine). -/
def cellWidthAt (f : Nat → Nat) (row : List (List Nat)) (i : Nat) : Nat :=
  match row[i]? with
  | some c => MeasureWidthIgnoreANSIBytesCustom f c
  | none => 0

/-- Maximum of a list of widths. -/
def maxList (l : List Nat) : Nat := l.foldr max 0

/-- Written from the spec's words, for comparison with measureColumns: the
width of a column is the maximum of the measured header width and the
measured width of every row's cell at that index. -/
def specColWidth (t : Table) (i : Nat) : Nat :=
  max (MeasureWidthIgnoreANSIBytesCustom t.widthFunc (t.headers.getD i []))
    (maxList (t.rows.map fun row => cellWidthAt t.widthFunc row i))

/-- Written from the spec's words: clipping a measured width down to a
configured positive per-column maximum. -/
def clipW (m w : Nat) : Nat := if 0 < m then min m w else w

/-- Whether a range list is sorted ascending by start code point. -/
def sortedByStart : List unicodeRange → Bool
  | [] => true
  | [_] => true
  | a :: b :: rest => decide (a.start ≤ b.start) && sortedByStart (b :: rest)

/-- Whether two ranges are disjoint as code-point sets. -/
def rangesDisjoint (a b : unicodeRange) : Bool :=
  decide (a.stop < b.start ∨ b.stop < a.start)

/-- Whether a range is disjoint from every range in a list. -/
def awayFromAll (g : unicodeRange) (l : List unicodeRange) : Bool :=
  l.all (rangesDisjoint g)

/-- Whether the ranges in a list are pairwise disjoint. -/
def pairwiseDisjoint : List unicodeRange → Bool
  | [] => true
  | g :: rest => awayFromAll g rest && pairwiseDisjoint rest

/-- Number of entries of a range list that contain a code point. -/
def matchCount (l : List unicodeRange) (r : Nat) : Nat :=
  l.countP (fun g => decide (inRange g r))



/-- Concrete table used to instantiate universally quantified theorems:
header "Hi", one row with cell "aaa", no maximum width. -/
def exampleTable : Table :=
  { headers := [[72, 105]]
  , rows := [[[97, 97, 97]]]
  , style := StyleSingle
  , aligns := [Align.left]
  , maxWidths := [0]
  , widthFunc := RuneWidth }

theorem csiSkip_length_le (l : List Nat) : (csiSkip l).length ≤ l.length := by
  induction l with
  | nil => simp [csiSkip]
  | cons c rest ih =>
    simp only [csiSkip]
    split
    · exact le_trans ih (by simp)
    · simp

theorem decodeRune_snd_pos (b0 : Nat) (rest : List Nat) : 1 ≤ (decodeRune (b0 :: rest)).2 := by
  simp only [decodeRune]
  repeat' split
  all_goals first | rfl | (simp only []; omega)

theorem decodeRune_snd_le (b : List Nat) : (decodeRune b).2 ≤ b.length := by
  match b with
  | [] => simp [decodeRune]
  | b0 :: rest =>
    simp only [decodeRune]
    repeat' split
    all_goals simp_all

theorem measureWF_nil (f : Nat → Nat) (fuel : Nat) : measureWF f fuel [] = 0 := by
  cases fuel <;> rfl

theorem measureWF_fuel (f : Nat → Nat) :
    ∀ n (b : List Nat), b.length ≤ n → ∀ fuel fuel', b.length ≤ fuel → b.length ≤ fuel' →
      measureWF f fuel b = measureWF f fuel' b := by
  intro n
  induction n with
  | zero =>
    intro b hb fuel fuel' _ _
    have hb0 : b = [] := List.eq_nil_of_length_eq_zero (Nat.le_zero.mp hb)
    subst hb0
    simp [measureWF_nil]
  | succ n ih =>
    intro b hb fuel fuel' hf hf'
    cases b with
    | nil => simp [measureWF_nil]
    | cons b0 rest =>
      simp only [List.length_cons] at hb hf hf'
      cases fuel with
      | zero => omega
      | succ f1 =>
        cases fuel' with
        | zero => omega
        | succ f2 =>
          simp only [measureWF]
          by_cases hcsi : b0 = 27 ∧ rest.take 1 = [91]
          · simp only [if_pos hcsi]
            have hlen : (csiSkip (rest.drop 1)).length ≤ rest.length := by
              have h1 := csiSkip_length_le (rest.drop 1)
              have h2 : (rest.drop 1).length ≤ rest.length := by simp
              omega
            exact ih _ (by omega) f1 f2 (by omega) (by omega)
          · simp only [if_neg hcsi]
            by_cases herr : (decodeRune (b0 :: rest)).1 = 0xFFFD
            · simp only [if_pos herr]
              have := ih rest (by omega) f1 f2 (by omega) (by omega)
              omega
            · simp only [if_neg herr]
              have hpos := decodeRune_snd_pos b0 rest
              have hlen : (List.drop (decodeRune (b0 :: rest)).2 (b0 :: rest)).length ≤ rest.length := by
                simp only [List.length_drop, List.length_cons]
                omega
              have := ih (List.drop (decodeRune (b0 :: rest)).2 (b0 :: rest)) (by omega) f1 f2 (by omega) (by omega)
              omega

theorem MeasureANSI_nil (f : Nat → Nat) : MeasureWidthIgnoreANSIBytesCustom f [] = 0 := rfl

theorem MeasureANSI_cons (f : Nat → Nat) (b0 : Nat) (rest : List Nat) :
    MeasureWidthIgnoreANSIBytesCustom f (b0 :: rest) =
      if b0 = 27 ∧ rest.take 1 = [91] then
        MeasureWidthIgnoreANSIBytesCustom f (csiSkip (rest.drop 1))
      else if (decodeRune (b0 :: rest)).1 = 0xFFFD then
        1 + MeasureWidthIgnoreANSIBytesCustom f rest
      else
        f (decodeRune (b0 :: rest)).1 +
          MeasureWidthIgnoreANSIBytesCustom f (List.drop (decodeRune (b0 :: rest)).2 (b0 :: rest)) := by
  unfold MeasureWidthIgnoreANSIBytesCustom
  simp only [List.length_cons, measureWF]
  by_cases hcsi : b0 = 27 ∧ rest.take 1 = [91]
  · simp only [if_pos hcsi]
    have hlen : (csiSkip (rest.drop 1)).length ≤ rest.length := by
      have h1 := csiSkip_length_le (rest.drop 1)
      have h2 : (rest.drop 1).length ≤ rest.length := by simp
      omega
    exact measureWF_fuel f rest.length _ hlen rest.length _ hlen le_rfl
  · simp only [if_neg hcsi]
    by_cases herr : (decodeRune (b0 :: rest)).1 = 0xFFFD
    · simp only [if_pos herr]
    · simp only [if_neg herr]
      have hpos := decodeRune_snd_pos b0 rest
      have hlen : (List.drop (decodeRune (b0 :: rest)).2 (b0 :: rest)).length ≤ rest.length := by
        simp only [List.length_drop, List.length_cons]
        omega
      have := measureWF_fuel f rest.length _ hlen rest.length _ hlen le_rfl
      omega

theorem widthWF_nil (f : Nat → Nat) (fuel : Nat) : widthWF f fuel [] = 0 := by
  cases fuel <;> rfl

theorem widthWF_fuel (f : Nat → Nat) :
    ∀ n (b : List Nat), b.length ≤ n → ∀ fuel fuel', b.length ≤ fuel → b.length ≤ fuel' →
      widthWF f fuel b = widthWF f fuel' b := by
  intro n
  induction n with
  | zero =>
    intro b hb fuel fuel' _ _
    have hb0 : b = [] := List.eq_nil_of_length_eq_zero (Nat.le_zero.mp hb)
    subst hb0
    simp [widthWF_nil]
  | succ n ih =>
    intro b hb fuel fuel' hf hf'
    cases b with
    | nil => simp [widthWF_nil]
    | cons b0 rest =>
      simp only [List.length_cons] at hb hf hf'
      cases fuel with
      | zero => omega
      | succ f1 =>
        cases fuel' with
        | zero => omega
        | succ f2 =>
          simp only [widthWF]
          by_cases herr : (decodeRune (b0 :: rest)).1 = 0xFFFD
          · simp only [if_pos herr]
            have := ih rest (by omega) f1 f2 (by omega) (by omega)
            omega
          · simp only [if_neg herr]
            have hpos := decodeRune_snd_pos b0 rest
            have := ih (List.drop (decodeRune (b0 :: rest)).2 (b0 :: rest))
              (by simp only [List.length_drop, List.length_cons]; omega) f1 f2
              (by simp only [List.length_drop, List.length_cons]; omega)
              (by simp only [List.length_drop, List.length_cons]; omega)
            omega

theorem StringWidth_nil (f : Nat → Nat) : StringWidthBytesCustom f [] = 0 := rfl

theorem StringWidth_cons (f : Nat → Nat) (b0 : Nat) (rest : List Nat) :
    StringWidthBytesCustom f (b0 :: rest) =
      if (decodeRune (b0 :: rest)).1 = 0xFFFD then
        1 + StringWidthBytesCustom f rest
      else
        f (decodeRune (b0 :: rest)).1 +
          StringWidthBytesCustom f (List.drop (decodeRune (b0 :: rest)).2 (b0 :: rest)) := by
  unfold StringWidthBytesCustom
  simp only [List.length_cons, widthWF]
  by_cases herr : (decodeRune (b0 :: rest)).1 = 0xFFFD
  · simp only [if_pos herr]
  · simp only [if_neg herr]
    have hpos := decodeRune_snd_pos b0 rest
    have hlen : (List.drop (decodeRune (b0 :: rest)).2 (b0 :: rest)).length ≤ rest.length := by
      simp only [List.length_drop, List.length_cons]
      omega
    have := widthWF_fuel f rest.length _ hlen rest.length _ hlen le_rfl
    omega

theorem truncWF_nil (maxW fuel width : Nat) : truncWF maxW fuel [] width = ([], width, false) := by
  cases fuel <;> rfl

theorem truncWF_fuel (maxW : Nat) :
    ∀ n (b : List Nat), b.length ≤ n → ∀ width fuel fuel', b.length ≤ fuel → b.length ≤ fuel' →
      truncWF maxW fuel b width = truncWF maxW fuel' b width := by
  intro n
  induction n with
  | zero =>
    intro b hb width fuel fuel' _ _
    have hb0 : b = [] := List.eq_nil_of_length_eq_zero (Nat.le_zero.mp hb)
    subst hb0
    simp [truncWF_nil]
  | succ n ih =>
    intro b hb width fuel fuel' hf hf'
    cases b with
    | nil => simp [truncWF_nil]
    | cons b0 rest =>
      simp only [List.length_cons] at hb hf hf'
      cases fuel with
      | zero => omega
      | succ f1 =>
        cases fuel' with
        | zero => omega
        | succ f2 =>
          simp only [truncWF]
          by_cases hbrk : maxW < width + RuneWidth (decodeRune (b0 :: rest)).1
          · simp only [if_pos hbrk]
          · simp only [if_neg hbrk]
            have hpos := decodeRune_snd_pos b0 rest
            have := ih (List.drop (decodeRune (b0 :: rest)).2 (b0 :: rest))
              (by simp only [List.length_drop, List.length_cons]; omega)
              (width + RuneWidth (decodeRune (b0 :: rest)).1) f1 f2
              (by simp only [List.length_drop, List.length_cons]; omega)
              (by simp only [List.length_drop, List.length_cons]; omega)
            rw [this]

theorem truncLoop_nil (maxW width : Nat) : truncLoop maxW [] width = ([], width, false) := rfl

theorem truncLoop_cons (maxW : Nat) (b0 : Nat) (rest : List Nat) (width : Nat) :
    truncLoop maxW (b0 :: rest) width =
      if maxW < width + RuneWidth (decodeRune (b0 :: rest)).1 then ([], width, true)
      else
        let out := truncLoop maxW (List.drop (decodeRune (b0 :: rest)).2 (b0 :: rest))
          (width + RuneWidth (decodeRune (b0 :: rest)).1)
        (List.take (decodeRune (b0 :: rest)).2 (b0 :: rest) ++ out.1, out.2.1, out.2.2) := by
  unfold truncLoop
  simp only [List.length_cons, truncWF]
  by_cases hbrk : maxW < width + RuneWidth (decodeRune (b0 :: rest)).1
  · simp only [if_pos hbrk]
  · simp only [if_neg hbrk]
    have hpos := decodeRune_snd_pos b0 rest
    have hlen : (List.drop (decodeRune (b0 :: rest)).2 (b0 :: rest)).length ≤ rest.length := by
      simp only [List.length_drop, List.length_cons]
      omega
    have := truncWF_fuel maxW rest.length _ hlen
      (width + RuneWidth (decodeRune (b0 :: rest)).1) rest.length _ hlen le_rfl
    rw [this]

theorem acceptRange3_lo (b0 : Nat) : 0x80 ≤ (acceptRange3 b0).1 := by
  unfold acceptRange3
  split
  · omega
  · split <;> omega

theorem acceptRange3_hi (b0 : Nat) : (acceptRange3 b0).2 ≤ 0xBF := by
  unfold acceptRange3
  split
  · omega
  · split <;> omega

theorem acceptRange4_lo (b0 : Nat) : 0x80 ≤ (acceptRange4 b0).1 := by
  unfold acceptRange4
  split
  · omega
  · split <;> omega

theorem decodeRune_append_all32 (b0 : Nat) (rest ys : List Nat) (hy : ∀ y ∈ ys, y = 32) :
    decodeRune ((b0 :: rest) ++ ys) = decodeRune (b0 :: rest) := by
  have hacc3 : ¬(0x80 ≤ (32 : Nat)) := by omega
  have hacc3lo : ¬((acceptRange3 b0).1 ≤ 32) := by
    have := acceptRange3_lo b0
    omega
  have hacc4lo : ¬((acceptRange4 b0).1 ≤ 32) := by
    have := acceptRange4_lo b0
    omega
  simp only [List.cons_append, decodeRune]
  by_cases h1 : b0 < 0x80
  · simp [h1]
  · simp only [if_neg h1]
    by_cases h2 : b0 < 0xC2 ∨ 0xF4 < b0
    · simp [h2]
    · simp only [if_neg h2]
      by_cases h3 : b0 < 0xE0
      · simp only [if_pos h3]
        cases rest with
        | cons b1 r1 => simp
        | nil =>
          cases ys with
          | nil => simp
          | cons y ys' =>
            have hy32 : y = 32 := hy y (by simp)
            subst hy32
            simp [hacc3]
      · simp only [if_neg h3]
        by_cases h4 : b0 < 0xF0
        · simp only [if_pos h4]
          cases rest with
          | cons b1 r1 =>
            cases r1 with
            | cons b2 r2 => simp
            | nil =>
              cases ys with
              | nil => simp
              | cons y ys' =>
                have hy32 : y = 32 := hy y (by simp)
                subst hy32
                simp [hacc3]
          | nil =>
            cases ys with
            | nil => simp
            | cons y ys' =>
              have hy32 : y = 32 := hy y (by simp)
              subst hy32
              cases ys' with
              | nil => simp
              | cons y2 ys2 => simp [hacc3lo]
        · simp only [if_neg h4]
          cases rest with
          | cons b1 r1 =>
            cases r1 with
            | cons b2 r2 =>
              cases r2 with
              | cons b3 r3 => simp
              | nil =>
                cases ys with
                | nil => simp
                | cons y ys' =>
                  have hy32 : y = 32 := hy y (by simp)
                  subst hy32
                  simp [hacc3]
            | nil =>
              cases ys with
              | nil => simp
              | cons y ys' =>
                have hy32 : y = 32 := hy y (by simp)
                subst hy32
                cases ys' with
                | nil => simp
                | cons y2 ys2 => simp [hacc3]
          | nil =>
            cases ys with
            | nil => simp
            | cons y ys' =>
              have hy32 : y = 32 := hy y (by simp)
              subst hy32
              cases ys' with
              | nil => simp
              | cons y2 ys2 =>
                have hy2 : y2 = 32 := hy y2 (by simp)
                subst hy2
                cases ys2 with
                | nil => simp
                | cons y3 ys3 => simp [hacc4lo]

theorem decodeRune_space (b : List Nat) : decodeRune (32 :: b) = (32, 1) := by
  simp [decodeRune]

theorem StringWidth_space_cons (f : Nat → Nat) (b : List Nat) :
    StringWidthBytesCustom f (32 :: b) = f 32 + StringWidthBytesCustom f b := by
  rw [StringWidth_cons]
  simp [decodeRune_space]

theorem StringWidth_replicate_prepend (f : Nat → Nat) (n : Nat) (b : List Nat) :
    StringWidthBytesCustom f (List.replicate n 32 ++ b) = n * f 32 + StringWidthBytesCustom f b := by
  induction n with
  | zero => simp
  | succ n ih =>
    rw [List.replicate_succ, List.cons_append, StringWidth_space_cons, ih]
    ring

theorem StringWidth_append_spaces (f : Nat → Nat) :
    ∀ n (b : List Nat), b.length ≤ n → ∀ m,
      StringWidthBytesCustom f (b ++ List.replicate m 32) =
        StringWidthBytesCustom f b + m * f 32 := by
  intro n
  induction n with
  | zero =>
    intro b hb m
    have hb0 : b = [] := List.eq_nil_of_length_eq_zero (Nat.le_zero.mp hb)
    subst hb0
    rw [List.nil_append, StringWidth_nil]
    have := StringWidth_replicate_prepend f m ([] : List Nat)
    simp only [List.append_nil, StringWidth_nil] at this
    omega
  | succ n ih =>
    intro b hb m
    cases b with
    | nil =>
      rw [List.nil_append, StringWidth_nil]
      have := StringWidth_replicate_prepend f m ([] : List Nat)
      simp only [List.append_nil, StringWidth_nil] at this
      omega
    | cons b0 rest =>
      simp only [List.length_cons] at hb
      have hdec := decodeRune_append_all32 b0 rest (List.replicate m 32)
        (fun y hy => (List.eq_of_mem_replicate hy))
      rw [List.cons_append, StringWidth_cons]
      rw [show b0 :: (rest ++ List.replicate m 32) = (b0 :: rest) ++ List.replicate m 32 from rfl]
      rw [hdec]
      rw [StringWidth_cons f b0 rest]
      by_cases herr : (decodeRune (b0 :: rest)).1 = 0xFFFD
      · simp only [if_pos herr]
        have hrest : rest.length ≤ n := by omega
        have : List.drop 1 ((b0 :: rest) ++ List.replicate m 32) = rest ++ List.replicate m 32 := by
          simp
        have ihr := ih rest hrest m
        omega
      · simp only [if_neg herr]
        have hpos := decodeRune_snd_pos b0 rest
        have hle := decodeRune_snd_le (b0 :: rest)
        have hdrop : List.drop (decodeRune (b0 :: rest)).2 ((b0 :: rest) ++ List.replicate m 32) =
            List.drop (decodeRune (b0 :: rest)).2 (b0 :: rest) ++ List.replicate m 32 := by
          rw [List.drop_append_of_le_length]
          exact hle
        rw [hdrop]
        have hlen : (List.drop (decodeRune (b0 :: rest)).2 (b0 :: rest)).length ≤ n := by
          simp only [List.length_drop, List.length_cons]
          omega
        have ihd := ih _ hlen m
        omega

theorem Measure_eq_StringWidth_of_escFree (f : Nat → Nat) :
    ∀ n (b : List Nat), b.length ≤ n → 27 ∉ b →
      MeasureWidthIgnoreANSIBytesCustom f b = StringWidthBytesCustom f b := by
  intro n
  induction n with
  | zero =>
    intro b hb _
    have hb0 : b = [] := List.eq_nil_of_length_eq_zero (Nat.le_zero.mp hb)
    subst hb0
    rfl
  | succ n ih =>
    intro b hb hesc
    cases b with
    | nil => rfl
    | cons b0 rest =>
      simp only [List.length_cons] at hb
      have hb0 : b0 ≠ 27 := fun h => hesc (h ▸ List.mem_cons_self b0 rest)
      have hrest : 27 ∉ rest := fun h => hesc (List.mem_cons_of_mem b0 h)
      rw [MeasureANSI_cons, StringWidth_cons]
      simp only [if_neg (fun h : b0 = 27 ∧ rest.take 1 = [91] => hb0 h.1)]
      by_cases herr : (decodeRune (b0 :: rest)).1 = 0xFFFD
      · simp only [if_pos herr]
        rw [ih rest (by omega) hrest]
      · simp only [if_neg herr]
        have hpos := decodeRune_snd_pos b0 rest
        have hmem : 27 ∉ List.drop (decodeRune (b0 :: rest)).2 (b0 :: rest) := by
          intro h
          exact hesc (List.mem_of_mem_drop h)
        rw [ih _ (by simp only [List.length_drop, List.length_cons]; omega) hmem]

theorem RuneWidth_space : RuneWidth 32 = 1 := by decide

theorem RuneWidth_fffd : RuneWidth 0xFFFD = 1 := by decide

theorem escFree_pad (cell : List Nat) (tw cw : Nat) (a : Align) (h : 27 ∉ cell) :
    27 ∉ padWithANSI cell tw cw a := by
  unfold padWithANSI
  by_cases hp : tw - cw = 0
  · simpa [hp] using h
  · simp only [if_neg hp]
    cases a <;> simp [List.mem_append, List.mem_replicate, h]

theorem StringWidth_pad_escFree (cell : List Nat) (tw cw : Nat) (a : Align) :
    StringWidthBytesCustom RuneWidth (padWithANSI cell tw cw a) =
      StringWidthBytesCustom RuneWidth cell + (tw - cw) := by
  unfold padWithANSI
  by_cases hp : tw - cw = 0
  · simp [hp]
  · simp only [if_neg hp]
    cases a with
    | center =>
      rw [StringWidth_append_spaces RuneWidth
        (List.replicate ((tw - cw) / 2) 32 ++ cell).length _ le_rfl,
        StringWidth_replicate_prepend, RuneWidth_space]
      omega
    | right =>
      rw [StringWidth_replicate_prepend, RuneWidth_space]
      omega
    | left =>
      rw [StringWidth_append_spaces RuneWidth cell.length cell le_rfl, RuneWidth_space]
      omega

theorem alignCell_pad_eq (f : Nat → Nat) (cell : List Nat) (w : Nat) (a : Align)
    (hw : MeasureWidthIgnoreANSIBytesCustom f cell < w) :
    alignCell f cell w a = padWithANSI cell w (MeasureWidthIgnoreANSIBytesCustom f cell) a := by
  unfold alignCell
  simp only [if_neg (by omega : ¬(w ≤ MeasureWidthIgnoreANSIBytesCustom f cell))]

theorem measure_alignCell_pad (cell : List Nat) (w : Nat) (a : Align) (hesc : 27 ∉ cell)
    (hw : MeasureWidthIgnoreANSIBytesCustom RuneWidth cell < w) :
    MeasureWidthIgnoreANSIBytesCustom RuneWidth (alignCell RuneWidth cell w a) = w := by
  rw [alignCell_pad_eq RuneWidth cell w a hw]
  have hpadesc := escFree_pad cell w (MeasureWidthIgnoreANSIBytesCustom RuneWidth cell) a hesc
  rw [Measure_eq_StringWidth_of_escFree RuneWidth
    (padWithANSI cell w (MeasureWidthIgnoreANSIBytesCustom RuneWidth cell) a).length _ le_rfl hpadesc]
  rw [StringWidth_pad_escFree]
  have hcw := Measure_eq_StringWidth_of_escFree RuneWidth cell.length cell le_rfl hesc
  omega

theorem hasANSI_false_of_escFree (b : List Nat) (h : 27 ∉ b) : HasANSIBytes b = false := by
  induction b with
  | nil => rfl
  | cons b0 rest ih =>
    have hb0 : b0 ≠ 27 := fun hc => h (hc ▸ List.mem_cons_self b0 rest)
    have hrest : 27 ∉ rest := fun hc => h (List.mem_cons_of_mem b0 hc)
    simp [HasANSIBytes, ih hrest, hb0]

theorem decodeRune_cont (b0 : Nat) (rest : List Nat) (h1 : 0x80 ≤ b0) (h2 : b0 < 0xC2) :
    decodeRune (b0 :: rest) = (0xFFFD, 1) := by
  simp only [decodeRune]
  rw [if_neg (by omega), if_pos (Or.inl h2)]

theorem decodeRune_fffd_cases (b0 : Nat) (rest : List Nat)
    (h : (decodeRune (b0 :: rest)).1 = 0xFFFD) :
    (decodeRune (b0 :: rest)).2 = 1 ∨
      (b0 = 0xEF ∧ rest.take 2 = [0xBF, 0xBD] ∧ (decodeRune (b0 :: rest)).2 = 3) := by
  by_cases h1 : b0 < 0x80
  · simp [decodeRune, h1] at h
    omega
  · by_cases h2 : b0 < 0xC2 ∨ 0xF4 < b0
    · left
      simp [decodeRune, h1, h2]
    · by_cases h3 : b0 < 0xE0
      · cases rest with
        | nil => left; simp [decodeRune, h1, h2, h3]
        | cons b1 r1 =>
          by_cases hc : 0x80 ≤ b1 ∧ b1 ≤ 0xBF
          · exfalso
            simp only [decodeRune, if_neg h1, if_neg h2, if_pos h3, if_pos hc] at h
            omega
          · left
            simp [decodeRune, h1, h2, h3, hc]
      · by_cases h4 : b0 < 0xF0
        · cases rest with
          | nil => left; simp [decodeRune, h1, h2, h3, h4]
          | cons b1 r1 =>
            cases r1 with
            | nil => left; simp [decodeRune, h1, h2, h3, h4]
            | cons b2 r2 =>
              by_cases hc : (acceptRange3 b0).1 ≤ b1 ∧ b1 ≤ (acceptRange3 b0).2 ∧
                  0x80 ≤ b2 ∧ b2 ≤ 0xBF
              · right
                have hlo := acceptRange3_lo b0
                have hhi := acceptRange3_hi b0
                have hpair : decodeRune (b0 :: b1 :: b2 :: r2) =
                    ((b0 - 0xE0) * 4096 + (b1 - 0x80) * 64 + (b2 - 0x80), 3) := by
                  simp only [decodeRune, if_neg h1, if_neg h2, if_neg h3, if_pos h4, if_pos hc]
                rw [hpair] at h
                obtain ⟨hc1, hc2, hc3, hc4⟩ := hc
                have hb0 : b0 = 0xEF := by omega
                have hb1 : b1 = 0xBF := by omega
                have hb2 : b2 = 0xBD := by omega
                subst hb0
                subst hb1
                subst hb2
                rw [hpair]
                exact ⟨rfl, by simp, rfl⟩
              · left
                simp [decodeRune, h1, h2, h3, h4, hc]
        · cases rest with
          | nil => left; simp [decodeRune, h1, h2, h3, h4]
          | cons b1 r1 =>
            cases r1 with
            | nil => left; simp [decodeRune, h1, h2, h3, h4]
            | cons b2 r2 =>
              cases r2 with
              | nil => left; simp [decodeRune, h1, h2, h3, h4]
              | cons b3 r3 =>
                by_cases hc : (acceptRange4 b0).1 ≤ b1 ∧ b1 ≤ (acceptRange4 b0).2 ∧
                    0x80 ≤ b2 ∧ b2 ≤ 0xBF ∧ 0x80 ≤ b3 ∧ b3 ≤ 0xBF
                · exfalso
                  simp only [decodeRune, if_neg h1, if_neg h2, if_neg h3, if_neg h4,
                    if_pos hc] at h
                  obtain ⟨hc1, hc2, hc3, hc4, hc5, hc6⟩ := hc
                  by_cases hf0 : b0 = 0xF0
                  · subst hf0
                    rw [show (acceptRange4 240).1 = 144 from rfl] at hc1
                    omega
                  · have : 0xF1 ≤ b0 := by omega
                    omega
                · left
                  simp [decodeRune, h1, h2, h3, h4, hc]

theorem rune_step_le (b0 : Nat) (rest : List Nat) :
    RuneWidth (decodeRune (b0 :: rest)).1 +
      StringWidthBytesCustom RuneWidth (List.drop (decodeRune (b0 :: rest)).2 (b0 :: rest)) ≤
      StringWidthBytesCustom RuneWidth (b0 :: rest) := by
  by_cases herr : (decodeRune (b0 :: rest)).1 = 0xFFFD
  · rw [StringWidth_cons, if_pos herr, herr, RuneWidth_fffd]
    rcases decodeRune_fffd_cases b0 rest herr with h1 | ⟨hb0, htake, h3⟩
    · rw [h1]
      simp
    · rw [h3]
      cases rest with
      | nil => simp at htake
      | cons r1 rest1 =>
        cases rest1 with
        | nil => simp at htake
        | cons r2 rest2 =>
          simp only [List.take, List.cons.injEq] at htake
          obtain ⟨hr1, hr2, -⟩ := htake
          subst hr1
          subst hr2
          have e1 : StringWidthBytesCustom RuneWidth (0xBF :: 0xBD :: rest2) =
              1 + (1 + StringWidthBytesCustom RuneWidth rest2) := by
            rw [StringWidth_cons, decodeRune_cont 0xBF (0xBD :: rest2) (by omega) (by omega)]
            rw [StringWidth_cons, decodeRune_cont 0xBD rest2 (by omega) (by omega)]
            simp
          simp only [List.drop_succ_cons, List.drop_zero, e1]
          omega
  · rw [StringWidth_cons, if_neg herr]

theorem truncLoop_all (maxW : Nat) :
    ∀ n (b : List Nat), b.length ≤ n → ∀ width,
      width + StringWidthBytesCustom RuneWidth b ≤ maxW →
      (truncLoop maxW b width).1 = b ∧ (truncLoop maxW b width).2.2 = false := by
  intro n
  induction n with
  | zero =>
    intro b hb width _
    have hb0 : b = [] := List.eq_nil_of_length_eq_zero (Nat.le_zero.mp hb)
    subst hb0
    simp [truncLoop_nil]
  | succ n ih =>
    intro b hb width hwid
    cases b with
    | nil => simp [truncLoop_nil]
    | cons b0 rest =>
      simp only [List.length_cons] at hb
      rw [truncLoop_cons]
      have hstep := rune_step_le b0 rest
      have hnobrk : ¬(maxW < width + RuneWidth (decodeRune (b0 :: rest)).1) := by omega
      simp only [if_neg hnobrk]
      have hpos := decodeRune_snd_pos b0 rest
      obtain ⟨ih1, ih2⟩ := ih (List.drop (decodeRune (b0 :: rest)).2 (b0 :: rest))
        (by simp only [List.length_drop, List.length_cons]; omega)
        (width + RuneWidth (decodeRune (b0 :: rest)).1) (by omega)
      refine ⟨?_, ih2⟩
      rw [ih1]
      exact List.take_append_drop _ _

theorem Truncate_noop (b : List Nat) (maxW : Nat)
    (h : StringWidthBytesCustom RuneWidth b ≤ maxW) (hpos : maxW ≠ 0) :
    TruncateToWidthBytes b maxW = b := by
  unfold TruncateToWidthBytes
  simp only [if_neg hpos]
  obtain ⟨h1, h2⟩ := truncLoop_all maxW b.length b le_rfl 0 (by omega)
  simp [h2, h1]

theorem alignCell_idem_core (cell : List Nat) (w : Nat) (a : Align) (hesc : 27 ∉ cell)
    (hw : MeasureWidthIgnoreANSIBytesCustom RuneWidth cell < w) :
    alignCell RuneWidth (alignCell RuneWidth cell w a) w a = alignCell RuneWidth cell w a := by
  have hS := measure_alignCell_pad cell w a hesc hw
  set S := alignCell RuneWidth cell w a with hSdef
  have hSesc : 27 ∉ S := by
    rw [hSdef, alignCell_pad_eq RuneWidth cell w a hw]
    exact escFree_pad cell w _ a hesc
  have h1 : alignCell RuneWidth S w a = truncateWithANSI RuneWidth S w := by
    unfold alignCell
    rw [hS, if_pos le_rfl]
  rw [h1]
  unfold truncateWithANSI
  rw [hasANSI_false_of_escFree S hSesc]
  simp only [if_pos rfl]
  refine Truncate_noop S w ?_ (by omega)
  rw [← Measure_eq_StringWidth_of_escFree RuneWidth S.length S le_rfl hSesc]
  omega

theorem alignCell_w0 (f : Nat → Nat) (cell : List Nat) (a : Align) (hesc : 27 ∉ cell) :
    alignCell f cell 0 a = [] := by
  unfold alignCell
  rw [if_pos (Nat.zero_le _)]
  unfold truncateWithANSI
  rw [hasANSI_false_of_escFree cell hesc]
  simp only [if_pos rfl]
  unfold TruncateToWidthBytes
  simp

theorem alignCell_eq_self (cell : List Nat) (w : Nat) (a : Align) (hesc : 27 ∉ cell)
    (heq : MeasureWidthIgnoreANSIBytesCustom RuneWidth cell = w) (hw : w ≠ 0) :
    alignCell RuneWidth cell w a = cell := by
  unfold alignCell
  rw [heq, if_pos le_rfl]
  unfold truncateWithANSI
  rw [hasANSI_false_of_escFree cell hesc]
  simp only [if_pos rfl]
  refine Truncate_noop cell w ?_ hw
  rw [← Measure_eq_StringWidth_of_escFree RuneWidth cell.length cell le_rfl hesc]
  omega

/-- Claim C1 (corrected): for an ANSI-free cell under the default width
function, whenever the target width is at least the cell's measured width the
formatted cell produced by alignCell measures exactly the target width. The
original claim also asserted exactness for truncated cells, which fails (see
the counterexample): a wide character at the truncation boundary leaves the
result one cell short. -/
theorem C1_alignCell_measure (cell : List Nat) (w : Nat) (a : Align) (hesc : 27 ∉ cell)
    (hle : MeasureWidthIgnoreANSIBytesCustom RuneWidth cell ≤ w) :
    MeasureWidthIgnoreANSIBytesCustom RuneWidth (alignCell RuneWidth cell w a) = w := by
  rcases Nat.lt_or_ge (MeasureWidthIgnoreANSIBytesCustom RuneWidth cell) w with hlt | hge
  · exact measure_alignCell_pad cell w a hesc hlt
  · have heq : MeasureWidthIgnoreANSIBytesCustom RuneWidth cell = w := by omega
    by_cases hw0 : w = 0
    · subst hw0
      rw [alignCell_w0 RuneWidth cell a hesc]
      rfl
    · rw [alignCell_eq_self cell w a hesc heq hw0, heq]

/-- Witness for C1_alignCell_measure at the cell "a" and target width 3. -/
theorem C1_alignCell_measure_witness :
    (27 ∉ ([97] : List Nat)) ∧ MeasureWidthIgnoreANSIBytesCustom RuneWidth [97] ≤ 3 ∧
    MeasureWidthIgnoreANSIBytesCustom RuneWidth (alignCell RuneWidth [97] 3 Align.left) = 3 :=
  ⟨by decide, by decide, C1_alignCell_measure [97] 3 Align.left (by decide) (by decide)⟩

/-- Claim C1, counterexample: the cell holding two ideographs (each of width
2, bytes of "日日") formatted at target width 3 is truncated to a single
ideograph of measured width 2, not 3, although width 3 is at least the
minimum renderable width (the one-ideograph cell measures 2 and a space fits
in the remaining cell). -/
theorem C1_counterexample :
    MeasureWidthIgnoreANSIBytesCustom RuneWidth
        (alignCell RuneWidth [230, 151, 165, 230, 151, 165] 3 Align.left) = 2 ∧
    MeasureWidthIgnoreANSIBytesCustom RuneWidth
        (alignCell RuneWidth [230, 151, 165, 230, 151, 165] 3 Align.left) ≠ 3 ∧
    MeasureWidthIgnoreANSIBytesCustom RuneWidth [230, 151, 165] = 2 := by
  refine ⟨by decide, by decide, by decide⟩

/-- Claim C6 (corrected): cell formatting is idempotent for every ANSI-free
cell whose measured width (default width function) is at most the target
width. The original unconditional claim fails when the cell is truncated at a
wide-character boundary: the first pass returns a result one cell short of
the target, and the second pass pads it (see the counterexample). -/
theorem C6_alignCell_idempotent (cell : List Nat) (w : Nat) (a : Align) (hesc : 27 ∉ cell)
    (hle : MeasureWidthIgnoreANSIBytesCustom RuneWidth cell ≤ w) :
    alignCell RuneWidth (alignCell RuneWidth cell w a) w a = alignCell RuneWidth cell w a := by
  rcases Nat.lt_or_ge (MeasureWidthIgnoreANSIBytesCustom RuneWidth cell) w with hlt | hge
  · exact alignCell_idem_core cell w a hesc hlt
  · have heq : MeasureWidthIgnoreANSIBytesCustom RuneWidth cell = w := by omega
    by_cases hw0 : w = 0
    · subst hw0
      rw [alignCell_w0 RuneWidth cell a hesc, alignCell_w0 RuneWidth [] a (by simp)]
    · have hfix := alignCell_eq_self cell w a hesc heq hw0
      rw [hfix]
      exact hfix

/-- Witness for C6_alignCell_idempotent at the cell "a" and target width 2. -/
theorem C6_alignCell_idempotent_witness :
    (27 ∉ ([97] : List Nat)) ∧ MeasureWidthIgnoreANSIBytesCustom RuneWidth [97] ≤ 2 ∧
    alignCell RuneWidth (alignCell RuneWidth [97] 2 Align.center) 2 Align.center =
      alignCell RuneWidth [97] 2 Align.center :=
  ⟨by decide, by decide, C6_alignCell_idempotent [97] 2 Align.center (by decide) (by decide)⟩

/-- Claim C6, counterexample: formatting the two-ideograph cell (bytes of
"日日") at width 3 yields the one-ideograph cell of width 2; formatting that
output again at width 3 pads it with a space, so the second application does
not return its input unchanged. -/
theorem C6_counterexample :
    alignCell RuneWidth
        (alignCell RuneWidth [230, 151, 165, 230, 151, 165] 3 Align.left) 3 Align.left ≠
      alignCell RuneWidth [230, 151, 165, 230, 151, 165] 3 Align.left := by
  decide

/-- Claim C2 (corrected): when an ANSI-free cell is at least as wide as the
target under the configured width function, alignCell returns exactly
TruncateToWidthBytes of the cell — a function that computes every code-point
width with the built-in RuneWidth, independent of the configured width
function. Column measurement and padding use the configured function, but
truncation does not, refuting the original claim that every layout decision
uses the installed function. -/
theorem C2_truncation_ignores_widthFunc (f : Nat → Nat) (cell : List Nat) (w : Nat) (a : Align)
    (hansi : HasANSIBytes cell = false)
    (hge : w ≤ MeasureWidthIgnoreANSIBytesCustom f cell) :
    alignCell f cell w a = TruncateToWidthBytes cell w := by
  unfold alignCell
  rw [if_pos hge]
  unfold truncateWithANSI
  rw [hansi]
  simp

/-- Witness for C2_truncation_ignores_widthFunc with the constant-2 width
function on the cell "abc" at target width 4. -/
theorem C2_truncation_ignores_widthFunc_witness :
    HasANSIBytes [97, 98, 99] = false ∧
    4 ≤ MeasureWidthIgnoreANSIBytesCustom (fun _ => 2) [97, 98, 99] ∧
    alignCell (fun _ => 2) [97, 98, 99] 4 Align.left = TruncateToWidthBytes [97, 98, 99] 4 :=
  ⟨by decide, by decide,
    C2_truncation_ignores_widthFunc (fun _ => 2) [97, 98, 99] 4 Align.left
      (by decide) (by decide)⟩

/-- Claim C2, counterexample: install the width function that gives every
code point width 2. The cell "abc" then measures 6, so at target width 4 it
must be truncated; truncation with the configured function (the spec-side
truncateToWidthSpec) would keep "ab" of measured width 4, but the rendered
cell is the whole "abc" of measured width 6, because TruncateToWidthBytes
consulted the built-in RuneWidth instead of the configured function. -/
theorem C2_counterexample :
    alignCell (fun _ => 2) [97, 98, 99] 4 Align.left = [97, 98, 99] ∧
    truncateToWidthSpec (fun _ => 2) [97, 98, 99] 4 = [97, 98] ∧
    MeasureWidthIgnoreANSIBytesCustom (fun _ => 2)
      (alignCell (fun _ => 2) [97, 98, 99] 4 Align.left) = 6 ∧
    ¬MeasureWidthIgnoreANSIBytesCustom (fun _ => 2)
      (alignCell (fun _ => 2) [97, 98, 99] 4 Align.left) ≤ 4 := by
  refine ⟨by decide, by decide, by decide, by decide⟩

/-- Claim C3 (code bug): with a per-column maximum width of 5, the cell
"Supercalifragilistic" is rendered as "Super" (five content characters, no
ellipsis), not "Su...": the greedy loop in TruncateToWidthBytes fills the
whole budget before checking for ellipsis room, so the room condition
(accumulated width at most maxWidth minus 3) is unsatisfiable and the
ellipsis branch never runs, contradicting the function's stated behavior of
adding an ellipsis when truncating. The measureColumns conjunct shows the
configured maximum 5 is indeed the width the column receives. -/
theorem C3_truncation_renders_Super :
    alignCell RuneWidth
        [83, 117, 112, 101, 114, 99, 97, 108, 105, 102, 114, 97, 103, 105, 108, 105, 115, 116, 105, 99]
        5 Align.left = [83, 117, 112, 101, 114] ∧
    alignCell RuneWidth
        [83, 117, 112, 101, 114, 99, 97, 108, 105, 102, 114, 97, 103, 105, 108, 105, 115, 116, 105, 99]
        5 Align.left ≠ [83, 117, 46, 46, 46] ∧
    MeasureWidthIgnoreANSIBytesCustom RuneWidth [83, 117, 112, 101, 114] = 5 ∧
    Table.measureColumns
      { headers := [[72]]
      , rows := [[[83, 117, 112, 101, 114, 99, 97, 108, 105, 102, 114, 97, 103, 105, 108, 105, 115, 116, 105, 99]]]
      , style := StyleSingle
      , aligns := [Align.left]
      , maxWidths := [5]
      , widthFunc := RuneWidth } = [5] := by
  refine ⟨by decide, by decide, by decide, by decide⟩

/-- Claim C8 (confirmed): RuneWidth is total with range contained in zero,
one, two over all Unicode code points; printable ASCII gets width one and
ASCII control codes get width zero. -/
theorem C8_runeWidth_total (r : Nat) (hr : r ≤ 0x10FFFF) :
    (RuneWidth r = 0 ∨ RuneWidth r = 1 ∨ RuneWidth r = 2) ∧
    (0x20 ≤ r ∧ r ≤ 0x7E → RuneWidth r = 1) ∧
    (r < 0x20 → RuneWidth r = 0) := by
  refine ⟨?_, ?_, ?_⟩
  · unfold RuneWidth
    by_cases h1 : r < 0x80
    · rw [if_pos h1]
      by_cases h2 : 0x20 ≤ r
      · rw [if_pos h2]
        right; left; rfl
      · rw [if_neg h2]
        left; rfl
    · rw [if_neg h1]
      by_cases hz : zeroWidthRanges.any (fun g => decide (inRange g r)) = true
      · rw [if_pos hz]
        left; rfl
      · rw [if_neg hz]
        cases hfind : wideRanges.find? (fun g => decide (inRange g r)) with
        | none => simp [hfind]
        | some g =>
          have hmem : g ∈ wideRanges := List.mem_of_find?_eq_some hfind
          have hall : ∀ g2 ∈ wideRanges, g2.width = 2 := by decide
          simp [hfind, hall g hmem]
  · intro h
    unfold RuneWidth
    rw [if_pos (by omega), if_pos h.1]
  · intro h
    unfold RuneWidth
    rw [if_pos (by omega), if_neg (by omega)]

/-- Witness for C8_runeWidth_total at the code point 65. -/
theorem C8_runeWidth_total_witness :
    (65 : Nat) ≤ 0x10FFFF ∧
    ((RuneWidth 65 = 0 ∨ RuneWidth 65 = 1 ∨ RuneWidth 65 = 2) ∧
      (0x20 ≤ 65 ∧ (65 : Nat) ≤ 0x7E → RuneWidth 65 = 1) ∧
      ((65 : Nat) < 0x20 → RuneWidth 65 = 0)) :=
  ⟨by decide, C8_runeWidth_total 65 (by decide)⟩

/-- Claim C10 (confirmed): AddRow and AddRowBytes with zero values return the
table unchanged — no row is appended and every field (headers, rows, style,
alignments, max widths, width function) is exactly as before. -/
theorem C10_addRow_empty_noop (t : Table) :
    t.AddRow [] = t ∧ t.AddRowBytes [] = t :=
  ⟨rfl, rfl⟩

/-- Claim C7 (confirmed): the streaming render agrees byte for byte with the
in-memory render, and the returned count is the length of that output. -/
theorem C7_writeTo_eq_string (t : Table) :
    t.WriteTo.2 = t.String ∧ t.WriteTo.1 = t.String.length := by
  unfold Table.WriteTo Table.String
  by_cases h : t.headers = []
  · simp [h]
  · simp [if_neg h]

theorem applyOp_headers (t : Table) (op : TableOp) : (applyOp t op).headers = t.headers := by
  cases op with
  | setStyle s => rfl
  | setAlign c a =>
    show (t.SetAlign c a).headers = t.headers
    unfold Table.SetAlign
    split <;> rfl
  | setMaxWidth c w =>
    show (t.SetMaxWidth c w).headers = t.headers
    unfold Table.SetMaxWidth
    split <;> rfl
  | setWidthFunc f => rfl
  | addRow vs =>
    show (t.AddRow vs).headers = t.headers
    cases vs <;> rfl
  | addRowBytes vs =>
    show (t.AddRowBytes vs).headers = t.headers
    cases vs <;> rfl

theorem applyOps_headers (ops : List TableOp) :
    ∀ t : Table, (applyOps t ops).headers = t.headers := by
  induction ops with
  | nil => intro t; rfl
  | cons op ops ih =>
    intro t
    show (applyOps (applyOp t op) ops).headers = t.headers
    rw [ih (applyOp t op), applyOp_headers]

/-- Claim C9 (confirmed): a table constructed with zero headers renders to
nothing whatever configuration or row calls precede the render: String
returns the empty output and WriteTo writes no bytes and returns count zero
(with a nil error). -/
theorem C9_headerless_render_empty (ops : List TableOp) :
    (applyOps (New []) ops).String = [] ∧ (applyOps (New []) ops).WriteTo = (0, []) := by
  have h : (applyOps (New []) ops).headers = [] := by
    rw [applyOps_headers ops (New [])]
    rfl
  constructor
  · unfold Table.String
    rw [if_pos h]
  · unfold Table.WriteTo
    rw [if_pos h]

/-- Claim C4, counterexample: the embedded wide-range table is not sorted
ascending by start code point — its first entry starts at 0x4E00 while its
second starts at 0x3400. -/
theorem C4_counterexample :
    sortedByStart wideRanges = false ∧
    (wideRanges.take 2).map unicodeRange.start = [0x4E00, 0x3400] ∧
    ¬(0x4E00 ≤ (0x3400 : Nat)) := by
  refine ⟨by decide, by decide, by decide⟩

theorem matchCount_le_one_of_pairwiseDisjoint (r : Nat) :
    ∀ l : List unicodeRange, pairwiseDisjoint l = true → matchCount l r ≤ 1 := by
  intro l
  induction l with
  | nil => intro _; simp [matchCount]
  | cons g rest ih =>
    intro h
    simp only [pairwiseDisjoint, Bool.and_eq_true] at h
    obtain ⟨haway, hrest⟩ := h
    unfold matchCount
    rw [List.countP_cons]
    by_cases hg : inRange g r
    · have hzero : List.countP (fun g2 => decide (inRange g2 r)) rest = 0 := by
        rw [List.countP_eq_zero]
        intro g2 hg2
        have hd := List.all_eq_true.mp haway g2 hg2
        unfold rangesDisjoint at hd
        rw [decide_eq_true_eq] at hd
        unfold inRange at hg ⊢
        simp only [decide_eq_true_eq]
        omega
      simp [hzero, hg]
    · have hle := ih hrest
      unfold matchCount at hle
      simp [hg]
      omega

/-- Claim C4 (corrected): the zero-width ranges are pairwise non-overlapping,
the wide ranges are pairwise non-overlapping, the two sets are mutually
disjoint, and consequently every code point matches at most one entry
overall; the claim's further assertion that each list is sorted ascending by
start code point is false (see the counterexample). -/
theorem C4_ranges_pairwise_disjoint :
    pairwiseDisjoint wideRanges = true ∧
    pairwiseDisjoint zeroWidthRanges = true ∧
    (zeroWidthRanges.all fun gz => wideRanges.all fun gw => rangesDisjoint gz gw) = true ∧
    ∀ r : Nat, matchCount (zeroWidthRanges ++ wideRanges) r ≤ 1 := by
  refine ⟨by decide, by decide, by decide, ?_⟩
  intro r
  exact matchCount_le_one_of_pairwiseDisjoint r (zeroWidthRanges ++ wideRanges) (by decide)

theorem rowUpdate_getElem (f : Nat → Nat) (ws : List Nat) (row : List (List Nat)) (i : Nat) :
    (rowUpdate f ws row)[i]? = (ws[i]?).map fun w => max w (cellWidthAt f row i) := by
  induction ws generalizing row i with
  | nil =>
    cases row <;> simp [rowUpdate]
  | cons w ws ih =>
    cases row with
    | nil =>
      simp only [rowUpdate, cellWidthAt]
      cases h : (w :: ws)[i]? <;> simp [h]
    | cons c cs =>
      cases i with
      | zero => simp [rowUpdate, cellWidthAt]
      | succ i =>
        simp only [rowUpdate, List.getElem?_cons_succ, ih]
        have hc : cellWidthAt f (c :: cs) (i + 1) = cellWidthAt f cs i := by
          simp [cellWidthAt]
        rw [hc]

theorem foldl_rowUpdate_getElem (f : Nat → Nat) (rows : List (List (List Nat))) :
    ∀ (ws : List Nat) (i : Nat),
      (rows.foldl (rowUpdate f) ws)[i]? =
        (ws[i]?).map fun w => max w (maxList (rows.map fun row => cellWidthAt f row i)) := by
  induction rows with
  | nil =>
    intro ws i
    simp only [List.foldl_nil, List.map_nil]
    cases h : ws[i]? <;> simp [h, maxList]
  | cons row rows ih =>
    intro ws i
    show (rows.foldl (rowUpdate f) (rowUpdate f ws row))[i]? = _
    rw [ih (rowUpdate f ws row) i, rowUpdate_getElem]
    cases h : ws[i]? with
    | none => simp [h]
    | some w =>
      simp only [h, Option.map_some', List.map_cons, Option.some.injEq]
      have hmax : maxList (cellWidthAt f row i :: rows.map fun r => cellWidthAt f r i) =
          max (cellWidthAt f row i) (maxList (rows.map fun r => cellWidthAt f r i)) := rfl
      rw [hmax]
      exact Nat.max_assoc w _ _

theorem clipWidths_getElem (ws ms : List Nat) (i : Nat) :
    (clipWidths ws ms)[i]? =
      match ws[i]?, ms[i]? with
      | some w, some m => some (if 0 < m ∧ m < w then m else w)
      | some w, none => some w
      | none, _ => none := by
  induction ws generalizing ms i with
  | nil =>
    cases ms <;> simp [clipWidths]
  | cons w ws ih =>
    cases ms with
    | nil =>
      simp only [clipWidths]
      cases h : (w :: ws)[i]? <;> simp [h]
    | cons m ms =>
      cases i with
      | zero => simp [clipWidths]
      | succ i =>
        simp only [clipWidths, List.getElem?_cons_succ]
        exact ih ms i

/-- Claim C5 (confirmed): for every table whose max-width slice matches the
header count (as New guarantees), each computed column width is the maximum
of the measured header width and the measured widths of every row's cell at
that index (absent cells contributing zero), clipped down to the configured
per-column maximum when that maximum is positive; consequently the computed
width is at least the header's measured width except when clipped, in which
case it equals the configured maximum. -/
theorem C5_measureColumns_spec (t : Table) (i : Nat)
    (hm : t.maxWidths.length = t.headers.length) (hi : i < t.headers.length) :
    t.measureColumns[i]? = some (clipW (t.maxWidths.getD i 0) (specColWidth t i)) ∧
    (MeasureWidthIgnoreANSIBytesCustom t.widthFunc (t.headers.getD i []) ≤
        clipW (t.maxWidths.getD i 0) (specColWidth t i) ∨
      (0 < t.maxWidths.getD i 0 ∧
        clipW (t.maxWidths.getD i 0) (specColWidth t i) = t.maxWidths.getD i 0)) := by
  have hne : ¬(t.headers = []) := by
    intro h
    rw [h] at hi
    simp at hi
  have hbase : (t.headers.map (MeasureWidthIgnoreANSIBytesCustom t.widthFunc))[i]? =
      some (MeasureWidthIgnoreANSIBytesCustom t.widthFunc (t.headers.getD i [])) := by
    rw [List.getElem?_map, List.getElem?_eq_getElem hi, Option.map_some',
      List.getD_eq_getElem t.headers [] hi]
  have hmwlt : i < t.maxWidths.length := by omega
  have hmw : t.maxWidths[i]? = some (t.maxWidths.getD i 0) := by
    rw [List.getElem?_eq_getElem hmwlt, List.getD_eq_getElem t.maxWidths 0 hmwlt]
  have hW : MeasureWidthIgnoreANSIBytesCustom t.widthFunc (t.headers.getD i []) ≤
      specColWidth t i := le_max_left _ _
  constructor
  · unfold Table.measureColumns
    rw [if_neg hne, clipWidths_getElem, foldl_rowUpdate_getElem, hbase, hmw]
    simp only [Option.map_some']
    have hclip : (if 0 < t.maxWidths.getD i 0 ∧ t.maxWidths.getD i 0 < specColWidth t i
        then t.maxWidths.getD i 0 else specColWidth t i) =
        clipW (t.maxWidths.getD i 0) (specColWidth t i) := by
      unfold clipW
      split_ifs <;> omega
    exact congrArg some hclip
  · unfold clipW
    split_ifs with h0
    · by_cases hc : t.maxWidths.getD i 0 ≤ specColWidth t i
      · right
        exact ⟨h0, Nat.min_eq_left hc⟩
      · left
        rw [Nat.min_eq_right (by omega)]
        exact hW
    · left
      exact hW

/-- Witness for C5_measureColumns_spec at the example table (header "Hi",
one row with cell "aaa", no maximum) and column 0. -/
theorem C5_measureColumns_spec_witness :
    (exampleTable.maxWidths.length = exampleTable.headers.length ∧
      0 < exampleTable.headers.length) ∧
    (exampleTable.measureColumns[0]? =
        some (clipW (exampleTable.maxWidths.getD 0 0) (specColWidth exampleTable 0)) ∧
      (MeasureWidthIgnoreANSIBytesCustom exampleTable.widthFunc (exampleTable.headers.getD 0 []) ≤
          clipW (exampleTable.maxWidths.getD 0 0) (specColWidth exampleTable 0) ∨
        (0 < exampleTable.maxWidths.getD 0 0 ∧
          clipW (exampleTable.maxWidths.getD 0 0) (specColWidth exampleTable 0) =
            exampleTable.maxWidths.getD 0 0))) :=
  ⟨⟨rfl, by decide⟩, C5_measureColumns_spec exampleTable 0 rfl (by decide)⟩
